/-
Verification of the Connect-4 engine (src/connect4.py).

Shallow embedding: the board is a total function from (row, column) to cell
values; the Python code's in-place mutation is modeled by explicit state
passing (minimax threads the board and we prove it is restored).  Machine
integers do not overflow here (Python ints are unbounded), so scores are ℤ;
the float infinities used for alpha/beta are modeled by WithBot (WithTop ℤ).
A numpy IndexError is modeled by Option: drop_piece returns none on an index
outside numpy's accepted range.
-/
import Mathlib

set_option maxHeartbeats 1000000

/-- Game constants (connect4.py lines 8-13). -/
abbrev ROWS : ℕ := 6

abbrev COLS : ℕ := 7

abbrev WINDOW_LENGTH : ℕ := 4

abbrev EMPTY : ℕ := 0

abbrev PLAYER_PIECE : ℕ := 1

abbrev AI_PIECE : ℕ := 2

/-- The board grid: row 0 is the top.  Cells outside the 6 x 7 range are never
read or written by the embedded operations (numpy index resolution guards
them), so a total function is a faithful model of the numpy array. -/
abbrev Board := ℕ → ℕ → ℕ

/-- The initial grid `np.zeros((ROWS, COLS))` (line 18). -/
def emptyBoard : Board := fun _ _ => EMPTY

/-- Writing one cell of the grid (`self.board[row][col] = piece`, line 26). -/
def setCell (b : Board) (r c v : ℕ) : Board :=
  fun r' c' => if r' = r ∧ c' = c then v else b r' c'

/-- numpy index resolution for an axis of length `n`: indices in `[0, n)` are
taken as is, indices in `[-n, 0)` count from the end, anything else raises
IndexError (modeled as `none`). -/
def npResolve (n : ℕ) (i : ℤ) : Option ℕ :=
  if 0 ≤ i ∧ i < (n : ℤ) then some i.toNat
  else if -(n : ℤ) ≤ i ∧ i < 0 then some (i + (n : ℤ)).toNat
  else none

/-- The scan of `drop_piece` (lines 24-28): try the given rows in order, place
the piece in the first row whose cell in column `c` is empty. -/
def dropScan (b : Board) (c p : ℕ) : List ℕ → Board × Bool
  | [] => (b, false)
  | r :: rs => if b r c = EMPTY then (setCell b r c p, true) else dropScan b c p rs

/-- The scan order `range(ROWS-1, -1, -1)` (line 24): rows from the bottom up. -/
def rowsBottomUp : List ℕ := (List.range ROWS).reverse

/-- The body of `drop_piece` after the column index has been resolved to a
valid ℕ. -/
def drop_piece_at (b : Board) (c p : ℕ) : Board × Bool :=
  dropScan b c p rowsBottomUp

/-- Source `drop_piece(col, piece)` (lines 22-28).  The column is a Python int; numpy
resolves it (negative indices count from the right) or raises IndexError on
the very first cell read, before any mutation — modeled as `none`. -/
def drop_piece (b : Board) (col : ℤ) (piece : ℕ) : Option (Board × Bool) :=
  (npResolve COLS col).map (fun c => drop_piece_at b c piece)

/-- Source `is_valid_location(col)` (lines 30-32). -/
def is_valid_location (b : Board) (col : ℕ) : Bool :=
  decide (col < COLS) && decide (b 0 col = EMPTY)

/-- Source `get_valid_locations()` (lines 34-36). -/
def get_valid_locations (b : Board) : List ℕ :=
  (List.range COLS).filter (fun c => is_valid_location b c)

/-- Source `is_winning_move(piece)` (lines 38-76): the four orientation scans with
early return, modeled as boolean existentials over the same index ranges. -/
def is_winning_move (b : Board) (piece : ℕ) : Bool :=
  ((List.range ROWS).any fun r => (List.range (COLS - 3)).any fun c =>
      decide (b r c = piece) && decide (b r (c+1) = piece) &&
      decide (b r (c+2) = piece) && decide (b r (c+3) = piece)) ||
  ((List.range (ROWS - 3)).any fun r => (List.range COLS).any fun c =>
      decide (b r c = piece) && decide (b (r+1) c = piece) &&
      decide (b (r+2) c = piece) && decide (b (r+3) c = piece)) ||
  ((List.range (ROWS - 3)).any fun r => (List.range (COLS - 3)).any fun c =>
      decide (b r c = piece) && decide (b (r+1) (c+1) = piece) &&
      decide (b (r+2) (c+2) = piece) && decide (b (r+3) (c+3) = piece)) ||
  ((List.range' 3 (ROWS - 3)).any fun r => (List.range (COLS - 3)).any fun c =>
      decide (b r c = piece) && decide (b (r-1) (c+1) = piece) &&
      decide (b (r-2) (c+2) = piece) && decide (b (r-3) (c+3) = piece))

/-- Source `is_board_full()` (lines 78-80). -/
def is_board_full (b : Board) : Bool :=
  (get_valid_locations b).length == 0

/-- Source `evaluate_window(window, piece)` (lines 82-96). -/
def evaluate_window (window : List ℕ) (piece : ℕ) : ℤ :=
  let opponent_piece := if piece = AI_PIECE then PLAYER_PIECE else AI_PIECE
  if window.count piece = 4 then 100
  else if window.count piece = 3 ∧ window.count EMPTY = 1 then 5
  else if window.count piece = 2 ∧ window.count EMPTY = 2 then 2
  else if window.count opponent_piece = 3 ∧ window.count EMPTY = 1 then -4
  else 0

/-- Source `score_position(piece)` (lines 98-133).  Each slice
`row_array[c:c+WINDOW_LENGTH]` is written as the list of the four cells it
contains. -/
def score_position (b : Board) (piece : ℕ) : ℤ :=
  let center_count : ℕ := (((List.range ROWS).map (fun r => b r (COLS / 2))).count piece)
  let horiz : ℤ := ((List.range ROWS).map (fun r =>
      ((List.range (COLS - 3)).map (fun c =>
        evaluate_window [b r c, b r (c+1), b r (c+2), b r (c+3)] piece)).sum)).sum
  let vert : ℤ := ((List.range COLS).map (fun c =>
      ((List.range (ROWS - 3)).map (fun r =>
        evaluate_window [b r c, b (r+1) c, b (r+2) c, b (r+3) c] piece)).sum)).sum
  let posDiag : ℤ := ((List.range (ROWS - 3)).map (fun r =>
      ((List.range (COLS - 3)).map (fun c =>
        evaluate_window [b r c, b (r+1) (c+1), b (r+2) (c+2), b (r+3) (c+3)] piece)).sum)).sum
  let negDiag : ℤ := ((List.range (ROWS - 3)).map (fun r =>
      ((List.range (COLS - 3)).map (fun c =>
        evaluate_window [b (r+3) c, b (r+2) (c+1), b (r+1) (c+2), b r (c+3)] piece)).sum)).sum
  (center_count : ℤ) * 3 + horiz + vert + posDiag + negDiag

/-- Source `is_terminal_node()` (lines 135-139). -/
def is_terminal_node (b : Board) : Bool :=
  is_winning_move b PLAYER_PIECE || is_winning_move b AI_PIECE || is_board_full b

/-- Scores extended with the float infinities used for alpha/beta. -/
abbrev ExtInt := WithBot (WithTop ℤ)

/-- An ordinary (finite) score seen as an extended score. -/
def toExt (z : ℤ) : ExtInt := ((z : WithTop ℤ) : ExtInt)

/-- The terminal evaluation of minimax (lines 150-156). -/
def terminalScore (b : Board) : ExtInt :=
  if is_winning_move b AI_PIECE then toExt 1000000
  else if is_winning_move b PLAYER_PIECE then toExt (-1000000)
  else toExt 0

/-- The leaf case of minimax (lines 148-158): terminal check first, then the
depth-zero heuristic. -/
def leafEval (b : Board) : Option ℕ × ExtInt :=
  if is_terminal_node b then (none, terminalScore b)
  else (none, toExt (score_position b AI_PIECE))

/-- The maximizing loop of minimax (lines 160-180).  `recur` is the recursive
call one ply deeper with roles swapped; the board argument threads
`self.board`: each iteration saves a copy, mutates via `drop_piece`, reads the
recursive score, and restores the saved copy before the pruning test (the
board state the recursion left behind is overwritten by the restore). -/
def mmMaxLoop (recur : Board → ExtInt → ExtInt → (Option ℕ × ExtInt) × Board) :
    List ℕ → Board → ExtInt → ExtInt → ℕ → ExtInt → (Option ℕ × ExtInt) × Board
  | [], b, _, _, column, value => ((some column, value), b)
  | col :: rest, b, alpha, beta, column, value =>
    let new_score := (recur ((drop_piece_at b col AI_PIECE).1) alpha beta).1.2
    let column' := if value < new_score then col else column
    let value' := if value < new_score then new_score else value
    let alpha' := max alpha value'
    if beta ≤ alpha' then ((some column', value'), b)
    else mmMaxLoop recur rest b alpha' beta column' value'

/-- The minimizing loop of minimax (lines 182-202), symmetric. -/
def mmMinLoop (recur : Board → ExtInt → ExtInt → (Option ℕ × ExtInt) × Board) :
    List ℕ → Board → ExtInt → ExtInt → ℕ → ExtInt → (Option ℕ × ExtInt) × Board
  | [], b, _, _, column, value => ((some column, value), b)
  | col :: rest, b, alpha, beta, column, value =>
    let new_score := (recur ((drop_piece_at b col PLAYER_PIECE).1) alpha beta).1.2
    let column' := if new_score < value then col else column
    let value' := if new_score < value then new_score else value
    let beta' := min beta value'
    if beta' ≤ alpha then ((some column', value'), b)
    else mmMinLoop recur rest b alpha beta' column' value'

/-- Source `minimax(depth, alpha, beta, maximizing_player)` (lines 141-202), with the
board state passed explicitly.  `rnd` models `random.choice`: an arbitrary
selection from the valid-location list (only ever applied to a non-empty list,
since an interior node is non-terminal and hence not full). -/
def minimax (rnd : List ℕ → ℕ) : ℕ → Board → ExtInt → ExtInt → Bool → (Option ℕ × ExtInt) × Board
  | 0, b, _, _, _ => (leafEval b, b)
  | d+1, b, alpha, beta, maximizing =>
    if is_terminal_node b then ((none, terminalScore b), b)
    else
      let valid := get_valid_locations b
      if maximizing then
        mmMaxLoop (fun b' a' b'' => minimax rnd d b' a' b'' false) valid b alpha beta (rnd valid) ⊥
      else
        mmMinLoop (fun b' a' b'' => minimax rnd d b' a' b'' true) valid b alpha beta (rnd valid) ⊤

/-- Source `get_ai_move(difficulty)` (lines 204-208). -/
def get_ai_move (rnd : List ℕ → ℕ) (b : Board) (difficulty : ℕ) : Option ℕ :=
  (minimax rnd difficulty b ⊥ ⊤ true).1.1

/- ---------------------------------------------------------------------------
Specification-side definitions.  These follow the words of the spec, for the
refinement claims; they are compared against the source-derived definitions
above.
--------------------------------------------------------------------------- -/

/-- Modelled from the spec: the maximizing fold of an UNPRUNED full minimax —
same ascending column order and first-strictly-better tie-break, no
alpha/beta.  (`recur` evaluates a child exactly.) -/
def fmMaxLoop (recur : Board → Option ℕ × ExtInt) (b : Board) :
    List ℕ → ℕ → ExtInt → Option ℕ × ExtInt
  | [], column, value => (some column, value)
  | col :: rest, column, value =>
    let s := (recur ((drop_piece_at b col AI_PIECE).1)).2
    if value < s then fmMaxLoop recur b rest col s
    else fmMaxLoop recur b rest column value

/-- Modelled from the spec: the minimizing fold of an unpruned full minimax. -/
def fmMinLoop (recur : Board → Option ℕ × ExtInt) (b : Board) :
    List ℕ → ℕ → ExtInt → Option ℕ × ExtInt
  | [], column, value => (some column, value)
  | col :: rest, column, value =>
    let s := (recur ((drop_piece_at b col PLAYER_PIECE).1)).2
    if s < value then fmMinLoop recur b rest col s
    else fmMinLoop recur b rest column value

/-- Modelled from the spec: unpruned full minimax at the same depth — the
comparison point of the alpha-beta equivalence claim. -/
def fullMinimax (rnd : List ℕ → ℕ) : ℕ → Board → Bool → Option ℕ × ExtInt
  | 0, b, _ => leafEval b
  | d+1, b, maximizing =>
    if is_terminal_node b then (none, terminalScore b)
    else
      let valid := get_valid_locations b
      if maximizing then
        fmMaxLoop (fun b' => fullMinimax rnd d b' false) b valid (rnd valid) ⊥
      else
        fmMinLoop (fun b' => fullMinimax rnd d b' true) b valid (rnd valid) ⊤

/-- The scores the maximizing top-level loop observes for its children, in
column order: child `i` is searched with the alpha accumulated from the
earlier children (beta stays +infinity at the root). -/
def obsScores (recur : Board → ExtInt → ExtInt → (Option ℕ × ExtInt) × Board) (b : Board) :
    List ℕ → ExtInt → List ExtInt
  | [], _ => []
  | c :: cs, alpha =>
    let s := (recur ((drop_piece_at b c AI_PIECE).1) alpha ⊤).1.2
    s :: obsScores recur b cs (max alpha s)

/-- The backed-up child scores of the top-level maximizing search at depth
`d + 1` on board `b`. -/
def observedScores (rnd : List ℕ → ℕ) (d : ℕ) (b : Board) : List ExtInt :=
  obsScores (fun b' a' b'' => minimax rnd d b' a' b'' false) b (get_valid_locations b) ⊥

/-- The gravity invariant: in every column, below a non-empty cell (larger row
index, row 0 is the top) every cell is non-empty. -/
def gravity (b : Board) : Prop :=
  ∀ c < COLS, ∀ r' < ROWS, ∀ r < r', b r c ≠ EMPTY → b r' c ≠ EMPTY

/-- A sequence of `drop_piece` operations.  A call that faults (numpy
IndexError) aborts the Python process with the board as it was, so it is
modeled as leaving the board unchanged. -/
def applyMoves (b : Board) : List (ℤ × ℕ) → Board
  | [] => b
  | m :: ms =>
    applyMoves (match drop_piece b m.1 m.2 with
                | some x => x.1
                | none => b) ms

/-- Modelled from the spec: "true iff any 4 cells in a straight line —
horizontal, vertical, diagonal down-right, diagonal down-left — are all
`piece`". -/
def winSpec (b : Board) (piece : ℕ) : Prop :=
  (∃ r < ROWS, ∃ c < COLS - 3, ∀ i < 4, b r (c + i) = piece) ∨
  (∃ r < ROWS - 3, ∃ c < COLS, ∀ i < 4, b (r + i) c = piece) ∨
  (∃ r < ROWS - 3, ∃ c < COLS - 3, ∀ i < 4, b (r + i) (c + i) = piece) ∨
  (∃ r < ROWS - 3, ∃ c < COLS - 3, ∀ i < 4, b (r + (3 - i)) (c + i) = piece)

/-- Modelled from the spec: the window score, a function of the window's
occupancy counts only — +100 for 4 own, +5 for 3 own + 1 empty, +2 for
2 own + 2 empty, -4 for 3 opponent + 1 empty, 0 otherwise. -/
def specWindowValue (w : List ℕ) (piece : ℕ) : ℤ :=
  let opp := if piece = AI_PIECE then PLAYER_PIECE else AI_PIECE
  if w.count piece = 4 then 100
  else if w.count piece = 3 ∧ w.count EMPTY = 1 then 5
  else if w.count piece = 2 ∧ w.count EMPTY = 2 then 2
  else if w.count opp = 3 ∧ w.count EMPTY = 1 then -4
  else 0

/-- Modelled from the spec: 3 per own piece in the center column, plus the
window score summed over every window of 4 contiguous cells in all four
orientations at every valid offset (the down-left diagonal read from its top
cell downward-left). -/
def specHeuristic (b : Board) (piece : ℕ) : ℤ :=
  3 * ((((List.range ROWS).map (fun r => b r (COLS / 2))).count piece : ℤ)) +
  (∑ r in Finset.range ROWS, ∑ c in Finset.range (COLS - 3),
    specWindowValue [b r c, b r (c+1), b r (c+2), b r (c+3)] piece) +
  (∑ c in Finset.range COLS, ∑ r in Finset.range (ROWS - 3),
    specWindowValue [b r c, b (r+1) c, b (r+2) c, b (r+3) c] piece) +
  (∑ r in Finset.range (ROWS - 3), ∑ c in Finset.range (COLS - 3),
    specWindowValue [b r c, b (r+1) (c+1), b (r+2) (c+2), b (r+3) (c+3)] piece) +
  (∑ r in Finset.range (ROWS - 3), ∑ c in Finset.range (COLS - 3),
    specWindowValue [b r (c+3), b (r+1) (c+2), b (r+2) (c+1), b (r+3) c] piece)

/- ---------------------------------------------------------------------------
Basic lemmas about extended scores and the drop scan.
--------------------------------------------------------------------------- -/

lemma bot_lt_toExt (z : ℤ) : (⊥ : ExtInt) < toExt z := WithBot.bot_lt_coe _

lemma toExt_lt_top (z : ℤ) : toExt z < (⊤ : ExtInt) := by
  have h : ((z : WithTop ℤ) : ExtInt) < ((⊤ : WithTop ℤ) : ExtInt) :=
    WithBot.coe_lt_coe.mpr (WithTop.coe_lt_top z)
  exact h

/-- The bottom-up scan either finds no empty cell (full column: no mutation,
returns false) or fills the lowest empty cell, every cell strictly below it
being occupied. -/
lemma drop_piece_at_cases (b : Board) (c p : ℕ) :
    ((∀ r < ROWS, b r c ≠ EMPTY) ∧ drop_piece_at b c p = (b, false)) ∨
    (∃ r0, r0 < ROWS ∧ b r0 c = EMPTY ∧ (∀ r, r0 < r → r < ROWS → b r c ≠ EMPTY) ∧
      drop_piece_at b c p = (setCell b r0 c p, true)) := by
  have hr : rowsBottomUp = [5, 4, 3, 2, 1, 0] := by decide
  unfold drop_piece_at
  rw [hr]
  by_cases h5 : b 5 c = EMPTY
  · refine Or.inr ⟨5, by decide, h5, ?_, by simp [dropScan, h5]⟩
    intro r hra hrb; have hrb6 : r < 6 := hrb; omega
  by_cases h4 : b 4 c = EMPTY
  · refine Or.inr ⟨4, by decide, h4, ?_, by simp [dropScan, h5, h4]⟩
    intro r hra hrb; have hrb6 : r < 6 := hrb; interval_cases r; exact h5
  by_cases h3 : b 3 c = EMPTY
  · refine Or.inr ⟨3, by decide, h3, ?_, by simp [dropScan, h5, h4, h3]⟩
    intro r hra hrb; have hrb6 : r < 6 := hrb; interval_cases r <;> assumption
  by_cases h2 : b 2 c = EMPTY
  · refine Or.inr ⟨2, by decide, h2, ?_, by simp [dropScan, h5, h4, h3, h2]⟩
    intro r hra hrb; have hrb6 : r < 6 := hrb; interval_cases r <;> assumption
  by_cases h1 : b 1 c = EMPTY
  · refine Or.inr ⟨1, by decide, h1, ?_, by simp [dropScan, h5, h4, h3, h2, h1]⟩
    intro r hra hrb; have hrb6 : r < 6 := hrb; interval_cases r <;> assumption
  by_cases h0 : b 0 c = EMPTY
  · refine Or.inr ⟨0, by decide, h0, ?_, by simp [dropScan, h5, h4, h3, h2, h1, h0]⟩
    intro r hra hrb; have hrb6 : r < 6 := hrb; interval_cases r <;> assumption
  · refine Or.inl ⟨?_, by simp [dropScan, h5, h4, h3, h2, h1, h0]⟩
    intro r hrr; have hrr6 : r < 6 := hrr; interval_cases r <;> assumption

lemma drop_piece_at_full (b : Board) (c p : ℕ) (h : ∀ r < ROWS, b r c ≠ EMPTY) :
    drop_piece_at b c p = (b, false) := by
  rcases drop_piece_at_cases b c p with ⟨-, heq⟩ | ⟨r0, hr0, hemp, -, -⟩
  · exact heq
  · exact absurd hemp (h r0 hr0)

lemma drop_piece_at_success (b : Board) (c p : ℕ) (h : ∃ r < ROWS, b r c = EMPTY) :
    (drop_piece_at b c p).2 = true := by
  rcases drop_piece_at_cases b c p with ⟨hfull, -⟩ | ⟨r0, hr0, hemp, -, heq⟩
  · obtain ⟨r, hr, he⟩ := h; exact absurd he (hfull r hr)
  · rw [heq]

lemma npResolve_nonneg (n : ℕ) (i : ℤ) (h1 : 0 ≤ i) (h2 : i < (n : ℤ)) :
    npResolve n i = some i.toNat := by
  unfold npResolve; rw [if_pos ⟨h1, h2⟩]

lemma npResolve_neg (n : ℕ) (i : ℤ) (h1 : -(n : ℤ) ≤ i) (h2 : i < 0) :
    npResolve n i = some (i + (n : ℤ)).toNat := by
  unfold npResolve
  rw [if_neg (by omega), if_pos ⟨h1, h2⟩]

lemma npResolve_out (n : ℕ) (i : ℤ) (h : (n : ℤ) ≤ i ∨ i < -(n : ℤ)) :
    npResolve n i = none := by
  unfold npResolve
  rw [if_neg (by omega), if_neg (by omega)]

/- ---------------------------------------------------------------------------
Gravity invariant.
--------------------------------------------------------------------------- -/

lemma gravity_emptyBoard : gravity emptyBoard := by
  intro c _ r' _ r _ hne
  exact absurd rfl hne

/-- One successful in-column placement preserves gravity: the scan fills the
lowest empty cell, and everything below that cell was already occupied. -/
lemma gravity_drop_piece_at (b : Board) (c p : ℕ) (hg : gravity b) :
    gravity ((drop_piece_at b c p).1) := by
  rcases drop_piece_at_cases b c p with ⟨-, heq⟩ | ⟨r0, hr0, hemp, habove, heq⟩
  · rw [heq]; exact hg
  · rw [heq]
    intro c' hc' r' hr' r hrr hne
    simp only [setCell] at hne ⊢
    by_cases hcc : c' = c
    · subst hcc
      by_cases hr0r : r = r0
      · rw [if_neg (by omega)]
        exact habove r' (by omega) hr'
      · rw [if_neg (by tauto)] at hne
        by_cases hr0r' : r' = r0
        · exact absurd hemp (hg c' hc' r0 hr0 r (by omega) hne)
        · rw [if_neg (by tauto)]
          exact hg c' hc' r' hr' r hrr hne
    · rw [if_neg (by tauto)] at hne
      rw [if_neg (by tauto)]
      exact hg c' hc' r' hr' r hrr hne

lemma gravity_move_step (b : Board) (col : ℤ) (p : ℕ) (hg : gravity b) :
    gravity (match drop_piece b col p with
             | some x => x.1
             | none => b) := by
  unfold drop_piece
  cases h : npResolve COLS col with
  | none => simpa [h] using hg
  | some c => simpa [h] using gravity_drop_piece_at b c p hg

lemma gravity_applyMoves (moves : List (ℤ × ℕ)) :
    ∀ b : Board, gravity b → gravity (applyMoves b moves) := by
  induction moves with
  | nil => intro b hg; exact hg
  | cons m ms ih =>
      intro b hg
      exact ih _ (gravity_move_step b m.1 m.2 hg)

/- ---------------------------------------------------------------------------
Board restoration by the search loops.
--------------------------------------------------------------------------- -/

lemma mmMaxLoop_board (recur : Board → ExtInt → ExtInt → (Option ℕ × ExtInt) × Board) :
    ∀ (cs : List ℕ) (b : Board) (alpha beta : ExtInt) (col : ℕ) (val : ExtInt),
      (mmMaxLoop recur cs b alpha beta col val).2 = b := by
  intro cs
  induction cs with
  | nil => intro b alpha beta col val; rfl
  | cons c rest ih =>
      intro b alpha beta col val
      simp only [mmMaxLoop]
      repeat' split
      all_goals first | rfl | exact ih _ _ _ _ _

lemma mmMinLoop_board (recur : Board → ExtInt → ExtInt → (Option ℕ × ExtInt) × Board) :
    ∀ (cs : List ℕ) (b : Board) (alpha beta : ExtInt) (col : ℕ) (val : ExtInt),
      (mmMinLoop recur cs b alpha beta col val).2 = b := by
  intro cs
  induction cs with
  | nil => intro b alpha beta col val; rfl
  | cons c rest ih =>
      intro b alpha beta col val
      simp only [mmMinLoop]
      repeat' split
      all_goals first | rfl | exact ih _ _ _ _ _

/- ---------------------------------------------------------------------------
Concrete boards and a concrete choice function, used by witnesses.
--------------------------------------------------------------------------- -/

/-- A concrete deterministic stand-in for `random.choice`. -/
def rnd0 : List ℕ → ℕ := fun l => l.headD 0

/-- Column 0 entirely filled with player pieces, all other columns empty. -/
def fullColBoard : Board := fun _ c => if c = 0 then PLAYER_PIECE else EMPTY

/-- Player pieces in rows 2-5 of column 0: a vertical player win. -/
def playerWinBoard : Board := fun r c => if c = 0 ∧ 2 ≤ r then PLAYER_PIECE else EMPTY

/- ---------------------------------------------------------------------------
Claim C2 — out-of-range drop_piece behavior.
--------------------------------------------------------------------------- -/

/-- C2 counterexample: the claim says an out-of-range column is a no-op
returning false with no mutation and no fault.  In fact column -1 places the
piece in column 6 (numpy negative indexing) and returns true, and column 7
raises IndexError (modeled `none`). -/
theorem c2_out_of_range_counterexample :
    (drop_piece emptyBoard (-1) AI_PIECE).map (fun x => (x.2, x.1 5 6)) =
      some (true, AI_PIECE) ∧
    drop_piece emptyBoard 7 AI_PIECE = none := by
  exact ⟨by decide, by rfl⟩

/-- C2 (amended): a column index with `col ≥ COLS` or `col < -COLS` faults
(numpy IndexError, modeled `none`) rather than returning false; for an
in-range full column, drop_piece returns false and leaves the board
unchanged. -/
theorem c2_out_of_range :
    (∀ (b : Board) (p : ℕ) (col : ℤ), ((COLS : ℤ) ≤ col ∨ col < -(COLS : ℤ)) →
      drop_piece b col p = none) ∧
    (∀ (b : Board) (p c : ℕ), c < COLS → (∀ r < ROWS, b r c ≠ EMPTY) →
      drop_piece b (c : ℤ) p = some (b, false)) := by
  constructor
  · intro b p col h
    unfold drop_piece
    rw [npResolve_out COLS col h]
    rfl
  · intro b p c hc hfull
    unfold drop_piece
    rw [npResolve_nonneg COLS (c : ℤ) (by omega) (by exact_mod_cast hc)]
    simp only [Int.toNat_natCast, Option.map_some']
    rw [drop_piece_at_full b c p hfull]

/-- C2 witness: the amended statement applied to a concrete full column and
a concrete too-large index. -/
theorem c2_out_of_range_witness :
    drop_piece fullColBoard 7 PLAYER_PIECE = none ∧
    drop_piece fullColBoard 0 PLAYER_PIECE = some (fullColBoard, false) :=
  ⟨c2_out_of_range.1 fullColBoard PLAYER_PIECE 7 (by decide),
   c2_out_of_range.2 fullColBoard PLAYER_PIECE 0 (by decide) (by decide)⟩

/- ---------------------------------------------------------------------------
Claim C10 — negative-index aliasing of drop_piece.
--------------------------------------------------------------------------- -/

/-- C10: for a negative column index `-COLS ≤ col < 0`, drop_piece does not
fault and behaves exactly as dropping into column `col + COLS`; when that
column is not full the drop succeeds (returns true). -/
theorem c10_negative_indexing (b : Board) (p : ℕ) (col : ℤ)
    (h1 : -(COLS : ℤ) ≤ col) (h2 : col < 0) :
    drop_piece b col p = some (drop_piece_at b (col + (COLS : ℤ)).toNat p) ∧
    ((∃ r < ROWS, b r ((col + (COLS : ℤ)).toNat) = EMPTY) →
      (drop_piece_at b ((col + (COLS : ℤ)).toNat) p).2 = true) := by
  constructor
  · unfold drop_piece
    rw [npResolve_neg COLS col h1 h2]
    rfl
  · intro hex
    exact drop_piece_at_success b _ p hex

/-- C10 witness: dropping at column -1 on the empty board mutates column 6
(cell (5,6) receives the piece) and returns true. -/
theorem c10_negative_indexing_witness :
    drop_piece emptyBoard (-1) PLAYER_PIECE =
      some (drop_piece_at emptyBoard ((-1 + (COLS : ℤ)).toNat) PLAYER_PIECE) ∧
    (drop_piece_at emptyBoard ((-1 + (COLS : ℤ)).toNat) PLAYER_PIECE).2 = true ∧
    (drop_piece_at emptyBoard ((-1 + (COLS : ℤ)).toNat) PLAYER_PIECE).1 5 6 = PLAYER_PIECE := by
  have h := c10_negative_indexing emptyBoard PLAYER_PIECE (-1) (by decide) (by decide)
  exact ⟨h.1, h.2 ⟨5, by decide, rfl⟩, by decide⟩

/- ---------------------------------------------------------------------------
Claim C8 — gravity invariant under placement sequences.
--------------------------------------------------------------------------- -/

/-- C8: after any sequence of drop_piece operations applied to the initially
empty board, every column's non-empty cells are contiguous from the bottom
(no empty cell below a non-empty cell).  Since every prefix of a sequence is
a sequence, the invariant holds after every step. -/
theorem c8_gravity_invariant (moves : List (ℤ × ℕ)) :
    gravity (applyMoves emptyBoard moves) :=
  gravity_applyMoves moves emptyBoard gravity_emptyBoard

/-- C8 witness: the invariant evaluated after a concrete sequence (including
a faulting column index). -/
theorem c8_gravity_invariant_witness :
    gravity (applyMoves emptyBoard [(3, PLAYER_PIECE), (3, AI_PIECE), (9, AI_PIECE)]) :=
  c8_gravity_invariant _

/- ---------------------------------------------------------------------------
Claim C9 — minimax restores the board.
--------------------------------------------------------------------------- -/

/-- C9: for every board, depth, alpha, beta and side-to-move, the board state
after minimax returns equals the board state before the call: every
exploratory placement is undone by restoring the saved copy, on every path,
including pruned branches. -/
theorem c9_board_restored (rnd : List ℕ → ℕ) (d : ℕ) (b : Board)
    (alpha beta : ExtInt) (m : Bool) :
    (minimax rnd d b alpha beta m).2 = b := by
  cases d with
  | zero => rfl
  | succ d =>
      simp only [minimax]
      split
      · rfl
      · split
        · exact mmMaxLoop_board _ _ _ _ _ _ _
        · exact mmMinLoop_board _ _ _ _ _ _ _

/- ---------------------------------------------------------------------------
Claim C3 — terminal positions.
--------------------------------------------------------------------------- -/

/-- C3: on a terminal board, minimax at every depth (including 0) returns no
move and the fixed extreme score: +1000000 if the AI piece has a win (checked
first), -1000000 if the player piece has a win, 0 otherwise (full-board
draw); the terminal check takes precedence over the depth check. -/
theorem c3_terminal_eval (rnd : List ℕ → ℕ) (d : ℕ) (b : Board)
    (alpha beta : ExtInt) (m : Bool) (h : is_terminal_node b = true) :
    (minimax rnd d b alpha beta m).1 =
      (none, if is_winning_move b AI_PIECE then toExt 1000000
             else if is_winning_move b PLAYER_PIECE then toExt (-1000000)
             else toExt 0) := by
  cases d with
  | zero =>
      simp only [minimax]
      simp [leafEval, h, terminalScore]
  | succ d =>
      simp only [minimax]
      simp [h, terminalScore]

/-- C3 witness: a board with a vertical player win, searched at depth 2,
evaluates to (no move, -1000000). -/
theorem c3_terminal_eval_witness :
    is_terminal_node playerWinBoard = true ∧
    (minimax rnd0 2 playerWinBoard ⊥ ⊤ true).1 = (none, toExt (-1000000)) := by
  refine ⟨by decide, ?_⟩
  rw [c3_terminal_eval rnd0 2 playerWinBoard ⊥ ⊤ true (by decide)]
  decide

/- ---------------------------------------------------------------------------
Claim C5 — depth-0 non-terminal evaluation.
--------------------------------------------------------------------------- -/

/-- C5: on a non-terminal board, minimax at depth 0 returns no move and
exactly the heuristic score of the position for the AI piece (the maximizing
side), for any alpha, beta and side-to-move flag. -/
theorem c5_depth_zero_heuristic (rnd : List ℕ → ℕ) (b : Board)
    (alpha beta : ExtInt) (m : Bool) (h : is_terminal_node b = false) :
    (minimax rnd 0 b alpha beta m).1 = (none, toExt (score_position b AI_PIECE)) := by
  simp only [minimax]
  simp [leafEval, h]

/-- C5 witness: the empty board is non-terminal, and depth-0 search returns
its heuristic score (which evaluates to 0). -/
theorem c5_depth_zero_heuristic_witness :
    is_terminal_node emptyBoard = false ∧
    (minimax rnd0 0 emptyBoard ⊥ ⊤ true).1 = (none, toExt (score_position emptyBoard AI_PIECE)) ∧
    score_position emptyBoard AI_PIECE = 0 :=
  ⟨by decide, c5_depth_zero_heuristic rnd0 emptyBoard ⊥ ⊤ true (by decide), by decide⟩

/- ---------------------------------------------------------------------------
Finiteness of minimax scores and irrelevance of the random fallback.
--------------------------------------------------------------------------- -/

lemma valid_ne_nil (b : Board) (h : is_terminal_node b = false) :
    get_valid_locations b ≠ [] := by
  intro hnil
  have hfull : is_board_full b = true := by
    unfold is_board_full
    rw [hnil]
    rfl
  unfold is_terminal_node at h
  rw [hfull] at h
  simp at h

lemma leafEval_snd_bounds (b : Board) :
    ⊥ < (leafEval b).2 ∧ (leafEval b).2 < ⊤ := by
  constructor <;>
    · unfold leafEval terminalScore
      repeat' split
      all_goals first | exact bot_lt_toExt _ | exact toExt_lt_top _

lemma terminalScore_bounds (b : Board) :
    ⊥ < terminalScore b ∧ terminalScore b < ⊤ := by
  constructor <;>
    · unfold terminalScore
      repeat' split
      all_goals first | exact bot_lt_toExt _ | exact toExt_lt_top _

lemma mmMaxLoop_lt_top (recur : Board → ExtInt → ExtInt → (Option ℕ × ExtInt) × Board)
    (hrect : ∀ b' a' b'', (recur b' a' b'').1.2 < ⊤) :
    ∀ (cs : List ℕ) (b : Board) (alpha beta : ExtInt) (col : ℕ) (val : ExtInt),
      val < ⊤ → (mmMaxLoop recur cs b alpha beta col val).1.2 < ⊤ := by
  intro cs
  induction cs with
  | nil => intro b alpha beta col val hval; exact hval
  | cons c rest ih =>
      intro b alpha beta col val hval
      simp only [mmMaxLoop]
      by_cases hlt : val < (recur ((drop_piece_at b c AI_PIECE).1) alpha beta).1.2
      · simp only [if_pos hlt]
        split
        · exact hrect _ _ _
        · exact ih _ _ _ _ _ (hrect _ _ _)
      · simp only [if_neg hlt]
        split
        · exact hval
        · exact ih _ _ _ _ _ hval

lemma mmMaxLoop_bot_lt (recur : Board → ExtInt → ExtInt → (Option ℕ × ExtInt) × Board)
    (hrecb : ∀ b' a' b'', ⊥ < (recur b' a' b'').1.2) :
    ∀ (cs : List ℕ) (b : Board) (alpha beta : ExtInt) (col : ℕ) (val : ExtInt),
      ⊥ < val → ⊥ < (mmMaxLoop recur cs b alpha beta col val).1.2 := by
  intro cs
  induction cs with
  | nil => intro b alpha beta col val hval; exact hval
  | cons c rest ih =>
      intro b alpha beta col val hval
      simp only [mmMaxLoop]
      by_cases hlt : val < (recur ((drop_piece_at b c AI_PIECE).1) alpha beta).1.2
      · simp only [if_pos hlt]
        split
        · exact hrecb _ _ _
        · exact ih _ _ _ _ _ (hrecb _ _ _)
      · simp only [if_neg hlt]
        split
        · exact hval
        · exact ih _ _ _ _ _ hval

lemma mmMaxLoop_cons_bot_lt (recur : Board → ExtInt → ExtInt → (Option ℕ × ExtInt) × Board)
    (hrecb : ∀ b' a' b'', ⊥ < (recur b' a' b'').1.2)
    (c : ℕ) (cs : List ℕ) (b : Board) (alpha beta : ExtInt) (col : ℕ) :
    ⊥ < (mmMaxLoop recur (c :: cs) b alpha beta col ⊥).1.2 := by
  simp only [mmMaxLoop]
  have h0 : (⊥ : ExtInt) < (recur ((drop_piece_at b c AI_PIECE).1) alpha beta).1.2 :=
    hrecb _ _ _
  simp only [if_pos h0]
  split
  · exact h0
  · exact mmMaxLoop_bot_lt recur hrecb _ _ _ _ _ _ h0

lemma mmMinLoop_bot_lt (recur : Board → ExtInt → ExtInt → (Option ℕ × ExtInt) × Board)
    (hrecb : ∀ b' a' b'', ⊥ < (recur b' a' b'').1.2) :
    ∀ (cs : List ℕ) (b : Board) (alpha beta : ExtInt) (col : ℕ) (val : ExtInt),
      ⊥ < val → ⊥ < (mmMinLoop recur cs b alpha beta col val).1.2 := by
  intro cs
  induction cs with
  | nil => intro b alpha beta col val hval; exact hval
  | cons c rest ih =>
      intro b alpha beta col val hval
      simp only [mmMinLoop]
      by_cases hlt : (recur ((drop_piece_at b c PLAYER_PIECE).1) alpha beta).1.2 < val
      · simp only [if_pos hlt]
        split
        · exact hrecb _ _ _
        · exact ih _ _ _ _ _ (hrecb _ _ _)
      · simp only [if_neg hlt]
        split
        · exact hval
        · exact ih _ _ _ _ _ hval

lemma mmMinLoop_lt_top (recur : Board → ExtInt → ExtInt → (Option ℕ × ExtInt) × Board)
    (hrect : ∀ b' a' b'', (recur b' a' b'').1.2 < ⊤) :
    ∀ (cs : List ℕ) (b : Board) (alpha beta : ExtInt) (col : ℕ) (val : ExtInt),
      val < ⊤ → (mmMinLoop recur cs b alpha beta col val).1.2 < ⊤ := by
  intro cs
  induction cs with
  | nil => intro b alpha beta col val hval; exact hval
  | cons c rest ih =>
      intro b alpha beta col val hval
      simp only [mmMinLoop]
      by_cases hlt : (recur ((drop_piece_at b c PLAYER_PIECE).1) alpha beta).1.2 < val
      · simp only [if_pos hlt]
        split
        · exact hrect _ _ _
        · exact ih _ _ _ _ _ (hrect _ _ _)
      · simp only [if_neg hlt]
        split
        · exact hval
        · exact ih _ _ _ _ _ hval

lemma mmMinLoop_cons_lt_top (recur : Board → ExtInt → ExtInt → (Option ℕ × ExtInt) × Board)
    (hrect : ∀ b' a' b'', (recur b' a' b'').1.2 < ⊤)
    (c : ℕ) (cs : List ℕ) (b : Board) (alpha beta : ExtInt) (col : ℕ) :
    (mmMinLoop recur (c :: cs) b alpha beta col ⊤).1.2 < ⊤ := by
  simp only [mmMinLoop]
  have h0 : (recur ((drop_piece_at b c PLAYER_PIECE).1) alpha beta).1.2 < ⊤ :=
    hrect _ _ _
  simp only [if_pos h0]
  split
  · exact h0
  · exact mmMinLoop_lt_top recur hrect _ _ _ _ _ _ h0

/-- Every minimax score is finite: strictly between the two infinities. -/
lemma minimax_score_bounds (rnd : List ℕ → ℕ) :
    ∀ (d : ℕ) (b : Board) (alpha beta : ExtInt) (m : Bool),
      ⊥ < (minimax rnd d b alpha beta m).1.2 ∧ (minimax rnd d b alpha beta m).1.2 < ⊤ := by
  intro d
  induction d with
  | zero => intro b alpha beta m; exact leafEval_snd_bounds b
  | succ d ih =>
      intro b alpha beta m
      simp only [minimax]
      split
      · exact terminalScore_bounds b
      · rename_i hterm
        have hvne : get_valid_locations b ≠ [] :=
          valid_ne_nil b (Bool.not_eq_true _ ▸ Bool.of_not_eq_true hterm)
        rcases hv : get_valid_locations b with _ | ⟨c, cs⟩
        · exact absurd hv hvne
        · split
          · constructor
            · exact mmMaxLoop_cons_bot_lt _ (fun b' a' b'' => (ih b' a' b'' false).1) c cs b alpha beta _
            · exact mmMaxLoop_lt_top _ (fun b' a' b'' => (ih b' a' b'' false).2) _ _ _ _ _ _ bot_lt_top
          · constructor
            · exact mmMinLoop_bot_lt _ (fun b' a' b'' => (ih b' a' b'' true).1) _ _ _ _ _ _ bot_lt_top
            · exact mmMinLoop_cons_lt_top _ (fun b' a' b'' => (ih b' a' b'' true).2) c cs b alpha beta _

lemma mmMaxLoop_col_irrel (recur : Board → ExtInt → ExtInt → (Option ℕ × ExtInt) × Board)
    (hrecb : ∀ b' a' b'', ⊥ < (recur b' a' b'').1.2)
    (c : ℕ) (cs : List ℕ) (b : Board) (alpha beta : ExtInt) (col₁ col₂ : ℕ) :
    mmMaxLoop recur (c :: cs) b alpha beta col₁ ⊥ =
      mmMaxLoop recur (c :: cs) b alpha beta col₂ ⊥ := by
  simp only [mmMaxLoop]
  have h0 : (⊥ : ExtInt) < (recur ((drop_piece_at b c AI_PIECE).1) alpha beta).1.2 :=
    hrecb _ _ _
  simp only [if_pos h0]

lemma mmMinLoop_col_irrel (recur : Board → ExtInt → ExtInt → (Option ℕ × ExtInt) × Board)
    (hrect : ∀ b' a' b'', (recur b' a' b'').1.2 < ⊤)
    (c : ℕ) (cs : List ℕ) (b : Board) (alpha beta : ExtInt) (col₁ col₂ : ℕ) :
    mmMinLoop recur (c :: cs) b alpha beta col₁ ⊤ =
      mmMinLoop recur (c :: cs) b alpha beta col₂ ⊤ := by
  simp only [mmMinLoop]
  have h0 : (recur ((drop_piece_at b c PLAYER_PIECE).1) alpha beta).1.2 < ⊤ :=
    hrect _ _ _
  simp only [if_pos h0]

/-- The random fallback never influences the result: minimax is the same
function for any two models of `random.choice`. -/
lemma minimax_rnd_irrel (rnd₁ rnd₂ : List ℕ → ℕ) :
    ∀ (d : ℕ) (b : Board) (alpha beta : ExtInt) (m : Bool),
      minimax rnd₁ d b alpha beta m = minimax rnd₂ d b alpha beta m := by
  intro d
  induction d with
  | zero => intro b alpha beta m; rfl
  | succ d ih =>
      intro b alpha beta m
      have hfunF : (fun b' a' b'' => minimax rnd₁ d b' a' b'' false) =
          (fun b' a' b'' => minimax rnd₂ d b' a' b'' false) := by
        funext b' a' b''
        exact ih b' a' b'' false
      have hfunT : (fun b' a' b'' => minimax rnd₁ d b' a' b'' true) =
          (fun b' a' b'' => minimax rnd₂ d b' a' b'' true) := by
        funext b' a' b''
        exact ih b' a' b'' true
      simp only [minimax]
      split
      · rfl
      · rename_i hterm
        have hvne : get_valid_locations b ≠ [] :=
          valid_ne_nil b (Bool.not_eq_true _ ▸ Bool.of_not_eq_true hterm)
        rcases hv : get_valid_locations b with _ | ⟨c, cs⟩
        · exact absurd hv hvne
        · split
          · rw [hfunF]
            exact mmMaxLoop_col_irrel _
              (fun b' a' b'' => (minimax_score_bounds rnd₂ d b' a' b'' false).1)
              c cs b alpha beta _ _
          · rw [hfunT]
            exact mmMinLoop_col_irrel _
              (fun b' a' b'' => (minimax_score_bounds rnd₂ d b' a' b'' true).2)
              c cs b alpha beta _ _

/-- Characterization of the top-level maximizing loop (alpha = running value,
beta = +infinity): either no observed score strictly exceeds the running value
(nothing is adopted), or the result is the FIRST index attaining the strict
maximum of the observed scores: strictly above every earlier score, at least
every later one. -/
lemma mmMaxLoop_top_sel (recur : Board → ExtInt → ExtInt → (Option ℕ × ExtInt) × Board)
    (hrecb : ∀ b' a' b'', ⊥ < (recur b' a' b'').1.2)
    (hrect : ∀ b' a' b'', (recur b' a' b'').1.2 < ⊤) :
    ∀ (cs : List ℕ) (b : Board) (col : ℕ) (val : ExtInt), val < ⊤ →
      (obsScores recur b cs val).length = cs.length ∧
      (((mmMaxLoop recur cs b val ⊤ col val).1 = (some col, val) ∧
          ∀ j < cs.length, (obsScores recur b cs val).getD j ⊥ ≤ val) ∨
        (∃ i < cs.length,
          (mmMaxLoop recur cs b val ⊤ col val).1 =
            (some (cs.getD i 0), (obsScores recur b cs val).getD i ⊥) ∧
          val < (obsScores recur b cs val).getD i ⊥ ∧
          (∀ j < i, (obsScores recur b cs val).getD j ⊥ <
            (obsScores recur b cs val).getD i ⊥) ∧
          (∀ j < cs.length, i < j →
            (obsScores recur b cs val).getD j ⊥ ≤
              (obsScores recur b cs val).getD i ⊥))) := by
  intro cs
  induction cs with
  | nil =>
      intro b col val hval
      refine ⟨rfl, Or.inl ⟨rfl, ?_⟩⟩
      intro j hj
      exact absurd hj (Nat.not_lt_zero j)
  | cons c rest ih =>
      intro b col val hval
      simp only [mmMaxLoop, obsScores]
      have hns_b : (⊥ : ExtInt) < (recur ((drop_piece_at b c AI_PIECE).1) val ⊤).1.2 :=
        hrecb _ _ _
      have hns_t : (recur ((drop_piece_at b c AI_PIECE).1) val ⊤).1.2 < ⊤ :=
        hrect _ _ _
      set ns := (recur ((drop_piece_at b c AI_PIECE).1) val ⊤).1.2 with hns
      by_cases hlt : val < ns
      · have hmax : max val ns = ns := max_eq_right (le_of_lt hlt)
        simp only [if_pos hlt, hmax, if_neg (not_le.mpr hns_t)]
        obtain ⟨hlen, hcases⟩ := ih b c ns hns_t
        refine ⟨by simp [hlen], Or.inr ?_⟩
        rcases hcases with ⟨heq, hall⟩ | ⟨i, hi, heq, hgt, hpre, hpost⟩
        · refine ⟨0, by simp, ?_, by simpa using hlt, by omega, ?_⟩
          · simpa using heq
          · intro j hj hj0
            rcases j with _ | j
            · omega
            · simp only [List.length_cons] at hj
              simpa using hall j (by omega)
        · refine ⟨i + 1, by simp only [List.length_cons]; omega, ?_, ?_, ?_, ?_⟩
          · simpa using heq
          · simpa using hlt.trans hgt
          · intro j hj
            rcases j with _ | j
            · simpa using hgt
            · simpa using hpre j (by omega)
          · intro j hj hij
            rcases j with _ | j
            · omega
            · simp only [List.length_cons] at hj
              simpa using hpost j (by omega) (by omega)
      · have hle : ns ≤ val := not_lt.mp hlt
        have hmaxv : max val val = val := max_self val
        have hmaxn : max val ns = val := max_eq_left hle
        simp only [if_neg hlt, hmaxv, hmaxn, if_neg (not_le.mpr hval)]
        obtain ⟨hlen, hcases⟩ := ih b col val hval
        refine ⟨by simp [hlen], ?_⟩
        rcases hcases with ⟨heq, hall⟩ | ⟨i, hi, heq, hgt, hpre, hpost⟩
        · refine Or.inl ⟨heq, ?_⟩
          intro j hj
          rcases j with _ | j
          · simpa using hle
          · simp only [List.length_cons] at hj
            simpa using hall j (by omega)
        · refine Or.inr ⟨i + 1, by simp only [List.length_cons]; omega, ?_, ?_, ?_, ?_⟩
          · simpa using heq
          · simpa using hgt
          · intro j hj
            rcases j with _ | j
            · simpa using hle.trans_lt hgt
            · simpa using hpre j (by omega)
          · intro j hj hij
            rcases j with _ | j
            · omega
            · simp only [List.length_cons] at hj
              simpa using hpost j (by omega) (by omega)

lemma minimax_succ_max (rnd : List ℕ → ℕ) (d : ℕ) (b : Board) (alpha beta : ExtInt)
    (h : is_terminal_node b = false) :
    minimax rnd (d + 1) b alpha beta true =
      mmMaxLoop (fun b' a' b'' => minimax rnd d b' a' b'' false)
        (get_valid_locations b) b alpha beta (rnd (get_valid_locations b)) ⊥ := by
  simp [minimax, h]

lemma minimax_succ_min (rnd : List ℕ → ℕ) (d : ℕ) (b : Board) (alpha beta : ExtInt)
    (h : is_terminal_node b = false) :
    minimax rnd (d + 1) b alpha beta false =
      mmMinLoop (fun b' a' b'' => minimax rnd d b' a' b'' true)
        (get_valid_locations b) b alpha beta (rnd (get_valid_locations b)) ⊤ := by
  simp [minimax, h]

lemma obsScores_head_pos (recur : Board → ExtInt → ExtInt → (Option ℕ × ExtInt) × Board)
    (hrecb : ∀ b' a' b'', ⊥ < (recur b' a' b'').1.2)
    (cs : List ℕ) (b : Board) (alpha : ExtInt) (hne : cs ≠ []) :
    ⊥ < (obsScores recur b cs alpha).getD 0 ⊥ := by
  cases cs with
  | nil => exact absurd rfl hne
  | cons c rest =>
      simp only [obsScores, List.getD_cons_zero]
      exact hrecb _ _ _

/- ---------------------------------------------------------------------------
Claim C4 — deterministic first-best column selection at the root.
--------------------------------------------------------------------------- -/

/-- C4: on a non-terminal board (hence with at least one legal move) the
top-level maximizing search returns the column at the first index attaining
the maximum of the backed-up child scores — its score strictly exceeds every
earlier column's score, and no later score exceeds it (later equal scores do
not replace it); the score strictly improves on -infinity, so the random
fallback candidate is never returned and the result is independent of the
choice function. -/
theorem c4_first_best_column (rnd : List ℕ → ℕ) (d : ℕ) (b : Board)
    (h : is_terminal_node b = false) :
    (∃ i < (get_valid_locations b).length,
      get_ai_move rnd b (d + 1) = some ((get_valid_locations b).getD i 0) ∧
      (minimax rnd (d + 1) b ⊥ ⊤ true).1.2 = (observedScores rnd d b).getD i ⊥ ∧
      ⊥ < (observedScores rnd d b).getD i ⊥ ∧
      (∀ j < i, (observedScores rnd d b).getD j ⊥ < (observedScores rnd d b).getD i ⊥) ∧
      (∀ j < (observedScores rnd d b).length, i < j →
        (observedScores rnd d b).getD j ⊥ ≤ (observedScores rnd d b).getD i ⊥)) ∧
    (∀ rnd' : List ℕ → ℕ, minimax rnd' (d + 1) b ⊥ ⊤ true = minimax rnd (d + 1) b ⊥ ⊤ true) := by
  unfold observedScores
  have hrecb : ∀ b' a' b'',
      ⊥ < ((fun b' a' b'' => minimax rnd d b' a' b'' false) b' a' b'').1.2 :=
    fun b' a' b'' => (minimax_score_bounds rnd d b' a' b'' false).1
  have hrect : ∀ b' a' b'',
      ((fun b' a' b'' => minimax rnd d b' a' b'' false) b' a' b'').1.2 < ⊤ :=
    fun b' a' b'' => (minimax_score_bounds rnd d b' a' b'' false).2
  obtain ⟨hlen, hcases⟩ :=
    mmMaxLoop_top_sel _ hrecb hrect (get_valid_locations b) b
      (rnd (get_valid_locations b)) ⊥ bot_lt_top
  have hmm := minimax_succ_max rnd d b ⊥ ⊤ h
  constructor
  · rcases hcases with ⟨heq, hall⟩ | ⟨i, hi, heq, hgt, hpre, hpost⟩
    · exfalso
      have hpos : 0 < (get_valid_locations b).length :=
        List.length_pos.mpr (valid_ne_nil b h)
      exact absurd (hall 0 hpos)
        (not_le.mpr (obsScores_head_pos _ hrecb _ b ⊥ (valid_ne_nil b h)))
    · refine ⟨i, hi, ?_, ?_, hgt, hpre, ?_⟩
      · unfold get_ai_move
        rw [hmm, heq]
      · rw [hmm, heq]
      · intro j hj hij
        exact hpost j (hlen ▸ hj) hij
  · intro rnd'
    exact minimax_rnd_irrel rnd' rnd (d + 1) b ⊥ ⊤ true

/-- Columns 0-5 filled with a winless pattern, column 6 empty: exactly one
legal move. -/
def nearFullBoard : Board := fun r c =>
  if c < 6 then (if (c / 2 + r) % 2 = 0 then PLAYER_PIECE else AI_PIECE) else EMPTY

/-- C4 witness: on the one-legal-move board the engine, at depth 1, picks
that column (the first and only strict improvement), whatever the fallback
would have said. -/
theorem c4_first_best_column_witness :
    is_terminal_node nearFullBoard = false ∧
    get_ai_move rnd0 nearFullBoard 1 = some 6 := by
  refine ⟨by decide, ?_⟩
  obtain ⟨⟨i, hi, hcol, -, -, -, -⟩, -⟩ := c4_first_best_column rnd0 0 nearFullBoard (by decide)
  have hv : get_valid_locations nearFullBoard = [6] := by decide
  rw [hv] at hi hcol
  have hi1 : i < 1 := by simpa using hi
  interval_cases i
  simpa using hcol

lemma forall_lt_four (g : ℕ → Prop) :
    (∀ i < 4, g i) ↔ (g 0 ∧ g 1 ∧ g 2 ∧ g 3) := by
  constructor
  · intro h
    exact ⟨h 0 (by omega), h 1 (by omega), h 2 (by omega), h 3 (by omega)⟩
  · rintro ⟨h0, h1, h2, h3⟩ i hi
    interval_cases i <;> assumption

/- ---------------------------------------------------------------------------
Claim C7 — win detection is exactly four-in-a-line existence.
--------------------------------------------------------------------------- -/

/-- C7: is_winning_move returns true exactly when 4 cells in a straight line
(horizontal, vertical, diagonal down-right or diagonal down-left) all hold
the piece. -/
theorem c7_win_detection (b : Board) (piece : ℕ) :
    is_winning_move b piece = true ↔ winSpec b piece := by
  unfold is_winning_move winSpec
  simp only [Bool.or_eq_true, List.any_eq_true, List.mem_range, List.mem_range',
    Bool.and_eq_true, decide_eq_true_eq]
  constructor
  · rintro (((⟨r, hr, c, hc, ⟨⟨h0, h1⟩, h2⟩, h3⟩ | ⟨r, hr, c, hc, ⟨⟨h0, h1⟩, h2⟩, h3⟩) |
      ⟨r, hr, c, hc, ⟨⟨h0, h1⟩, h2⟩, h3⟩) | ⟨r, ⟨i, hi, hri⟩, c, hc, ⟨⟨h0, h1⟩, h2⟩, h3⟩)
    · refine Or.inl ⟨r, hr, c, hc, (forall_lt_four _).mpr ⟨?_, ?_, ?_, ?_⟩⟩
      · convert h0 using 2 <;> omega
      · convert h1 using 2 <;> omega
      · convert h2 using 2 <;> omega
      · convert h3 using 2 <;> omega
    · refine Or.inr (Or.inl ⟨r, hr, c, hc, (forall_lt_four _).mpr ⟨?_, ?_, ?_, ?_⟩⟩)
      · convert h0 using 2 <;> omega
      · convert h1 using 2 <;> omega
      · convert h2 using 2 <;> omega
      · convert h3 using 2 <;> omega
    · refine Or.inr (Or.inr (Or.inl ⟨r, hr, c, hc, (forall_lt_four _).mpr ⟨?_, ?_, ?_, ?_⟩⟩))
      · convert h0 using 2 <;> omega
      · convert h1 using 2 <;> omega
      · convert h2 using 2 <;> omega
      · convert h3 using 2 <;> omega
    · subst hri
      refine Or.inr (Or.inr (Or.inr ⟨i, hi, c, hc, (forall_lt_four _).mpr ⟨?_, ?_, ?_, ?_⟩⟩))
      · convert h0 using 2 <;> omega
      · convert h1 using 2 <;> omega
      · convert h2 using 2 <;> omega
      · convert h3 using 2 <;> omega
  · rintro (⟨r, hr, c, hc, hall⟩ | ⟨r, hr, c, hc, hall⟩ | ⟨r, hr, c, hc, hall⟩ |
      ⟨r, hr, c, hc, hall⟩) <;>
      obtain ⟨g0, g1, g2, g3⟩ := (forall_lt_four _).mp hall
    · refine Or.inl (Or.inl (Or.inl ⟨r, hr, c, hc, ⟨⟨?_, ?_⟩, ?_⟩, ?_⟩))
      · convert g0 using 2 <;> omega
      · convert g1 using 2 <;> omega
      · convert g2 using 2 <;> omega
      · convert g3 using 2 <;> omega
    · refine Or.inl (Or.inl (Or.inr ⟨r, hr, c, hc, ⟨⟨?_, ?_⟩, ?_⟩, ?_⟩))
      · convert g0 using 2 <;> omega
      · convert g1 using 2 <;> omega
      · convert g2 using 2 <;> omega
      · convert g3 using 2 <;> omega
    · refine Or.inl (Or.inr ⟨r, hr, c, hc, ⟨⟨?_, ?_⟩, ?_⟩, ?_⟩)
      · convert g0 using 2 <;> omega
      · convert g1 using 2 <;> omega
      · convert g2 using 2 <;> omega
      · convert g3 using 2 <;> omega
    · refine Or.inr ⟨3 + r, ⟨r, hr, by omega⟩, c, hc, ⟨⟨?_, ?_⟩, ?_⟩, ?_⟩
      · convert g0 using 2 <;> omega
      · convert g1 using 2 <;> omega
      · convert g2 using 2 <;> omega
      · convert g3 using 2 <;> omega

lemma sum_map_range (f : ℕ → ℤ) (n : ℕ) :
    ((List.range n).map f).sum = ∑ i in Finset.range n, f i := by
  induction n with
  | zero => simp
  | succ n ih =>
      rw [List.range_succ, Finset.sum_range_succ]
      simp [ih]

lemma evaluate_window_rev (a₁ a₂ a₃ a₄ piece : ℕ) :
    evaluate_window [a₁, a₂, a₃, a₄] piece = evaluate_window [a₄, a₃, a₂, a₁] piece := by
  have h : ∀ x : ℕ, List.count x [a₄, a₃, a₂, a₁] = List.count x [a₁, a₂, a₃, a₄] := by
    intro x
    have e : [a₄, a₃, a₂, a₁] = [a₁, a₂, a₃, a₄].reverse := rfl
    rw [e, List.count_reverse]
  unfold evaluate_window
  simp only [h]

/- ---------------------------------------------------------------------------
Claim C6 — the heuristic score formula.
--------------------------------------------------------------------------- -/

/-- C6: for every board and piece, the heuristic equals 3 per own piece in the
center column plus the count-based window value (+100 / +5 / +2 / -4 / 0)
summed over every window of four contiguous cells in all four orientations at
every valid offset. -/
theorem c6_heuristic_formula (b : Board) (piece : ℕ) :
    score_position b piece = specHeuristic b piece := by
  unfold score_position specHeuristic
  have hew : ∀ (w : List ℕ) (p : ℕ), specWindowValue w p = evaluate_window w p :=
    fun _ _ => rfl
  have hrev : ∀ r c : ℕ,
      evaluate_window [b r (c+3), b (r+1) (c+2), b (r+2) (c+1), b (r+3) c] piece =
        evaluate_window [b (r+3) c, b (r+2) (c+1), b (r+1) (c+2), b r (c+3)] piece :=
    fun r c => evaluate_window_rev _ _ _ _ _
  simp only [sum_map_range, hew, hrev]
  ring

/- ---------------------------------------------------------------------------
Fail-soft alpha-beta correctness (towards claim C1).
--------------------------------------------------------------------------- -/

/-- The fail-soft contract of an alpha-beta value `r` against the exact
minimax value `v` in window `(alpha, beta)`: inside the window it is exact,
a fail-low is an upper bound, a fail-high is a lower bound. -/
def FailSoft (r v alpha beta : ExtInt) : Prop :=
  (r ≤ alpha → v ≤ r) ∧ (beta ≤ r → r ≤ v) ∧ (alpha < r → r < beta → r = v)

lemma failSoft_of_eq {r v alpha beta : ExtInt} (h : r = v) : FailSoft r v alpha beta := by
  subst h
  exact ⟨fun _ => le_refl _, fun _ => le_refl _, fun _ _ => rfl⟩

/-- The value computed by the unpruned maximizing fold, as a bare fold. -/
def fmValMax (recur : Board → Option ℕ × ExtInt) (b : Board) : List ℕ → ExtInt → ExtInt
  | [], val => val
  | c :: cs, val =>
    fmValMax recur b cs (max val (recur ((drop_piece_at b c AI_PIECE).1)).2)

/-- The value computed by the unpruned minimizing fold, as a bare fold. -/
def fmValMin (recur : Board → Option ℕ × ExtInt) (b : Board) : List ℕ → ExtInt → ExtInt
  | [], val => val
  | c :: cs, val =>
    fmValMin recur b cs (min val (recur ((drop_piece_at b c PLAYER_PIECE).1)).2)

lemma fmMaxLoop_snd (recur : Board → Option ℕ × ExtInt) (b : Board) :
    ∀ (cs : List ℕ) (col : ℕ) (val : ExtInt),
      (fmMaxLoop recur b cs col val).2 = fmValMax recur b cs val := by
  intro cs
  induction cs with
  | nil => intro col val; rfl
  | cons c rest ih =>
      intro col val
      simp only [fmMaxLoop, fmValMax]
      by_cases hlt : val < (recur ((drop_piece_at b c AI_PIECE).1)).2
      · rw [if_pos hlt, ih, max_eq_right hlt.le]
      · rw [if_neg hlt, ih, max_eq_left (not_lt.mp hlt)]

lemma fmMinLoop_snd (recur : Board → Option ℕ × ExtInt) (b : Board) :
    ∀ (cs : List ℕ) (col : ℕ) (val : ExtInt),
      (fmMinLoop recur b cs col val).2 = fmValMin recur b cs val := by
  intro cs
  induction cs with
  | nil => intro col val; rfl
  | cons c rest ih =>
      intro col val
      simp only [fmMinLoop, fmValMin]
      by_cases hlt : (recur ((drop_piece_at b c PLAYER_PIECE).1)).2 < val
      · rw [if_pos hlt, ih, min_eq_right hlt.le]
      · rw [if_neg hlt, ih, min_eq_left (not_lt.mp hlt)]

lemma le_fmValMax (recur : Board → Option ℕ × ExtInt) (b : Board) :
    ∀ (cs : List ℕ) (val : ExtInt), val ≤ fmValMax recur b cs val := by
  intro cs
  induction cs with
  | nil => intro val; exact le_refl _
  | cons c rest ih =>
      intro val
      exact le_trans (le_max_left _ _) (ih _)

lemma fmValMin_le (recur : Board → Option ℕ × ExtInt) (b : Board) :
    ∀ (cs : List ℕ) (val : ExtInt), fmValMin recur b cs val ≤ val := by
  intro cs
  induction cs with
  | nil => intro val; exact le_refl _
  | cons c rest ih =>
      intro val
      exact le_trans (ih _) (min_le_left _ _)

lemma fmValMax_mono (recur : Board → Option ℕ × ExtInt) (b : Board) :
    ∀ (cs : List ℕ) (v₁ v₂ : ExtInt), v₁ ≤ v₂ →
      fmValMax recur b cs v₁ ≤ fmValMax recur b cs v₂ := by
  intro cs
  induction cs with
  | nil => intro v₁ v₂ h; exact h
  | cons c rest ih =>
      intro v₁ v₂ h
      exact ih _ _ (max_le_max h (le_refl _))

lemma fmValMin_mono (recur : Board → Option ℕ × ExtInt) (b : Board) :
    ∀ (cs : List ℕ) (v₁ v₂ : ExtInt), v₁ ≤ v₂ →
      fmValMin recur b cs v₁ ≤ fmValMin recur b cs v₂ := by
  intro cs
  induction cs with
  | nil => intro v₁ v₂ h; exact h
  | cons c rest ih =>
      intro v₁ v₂ h
      exact ih _ _ (min_le_min h (le_refl _))

lemma fmValMax_max (recur : Board → Option ℕ × ExtInt) (b : Board) :
    ∀ (cs : List ℕ) (x y : ExtInt),
      fmValMax recur b cs (max x y) = max x (fmValMax recur b cs y) := by
  intro cs
  induction cs with
  | nil => intro x y; rfl
  | cons c rest ih =>
      intro x y
      simp only [fmValMax]
      rw [max_assoc, ih]

lemma fmValMin_min (recur : Board → Option ℕ × ExtInt) (b : Board) :
    ∀ (cs : List ℕ) (x y : ExtInt),
      fmValMin recur b cs (min x y) = min x (fmValMin recur b cs y) := by
  intro cs
  induction cs with
  | nil => intro x y; rfl
  | cons c rest ih =>
      intro x y
      simp only [fmValMin]
      rw [min_assoc, ih]

/-- Fail-soft correctness of the pruned maximizing loop against the unpruned
fold, relative to the loop's own current window and running value. -/
lemma mmMaxLoop_failSoft
    (recurP : Board → ExtInt → ExtInt → (Option ℕ × ExtInt) × Board)
    (recurF : Board → Option ℕ × ExtInt)
    (hrec : ∀ b' a' b'', a' < b'' →
      FailSoft ((recurP b' a' b'').1.2) ((recurF b').2) a' b'') :
    ∀ (cs : List ℕ) (b : Board) (alpha beta : ExtInt) (col : ℕ) (val : ExtInt),
      alpha < beta → val ≤ alpha →
      val ≤ (mmMaxLoop recurP cs b alpha beta col val).1.2 ∧
      FailSoft ((mmMaxLoop recurP cs b alpha beta col val).1.2)
        (fmValMax recurF b cs val) alpha beta := by
  intro cs
  induction cs with
  | nil =>
      intro b alpha beta col val hab hva
      exact ⟨le_refl _, failSoft_of_eq rfl⟩
  | cons c rest ih =>
      intro b alpha beta col val hab hva
      simp only [mmMaxLoop, fmValMax]
      set r := (recurP ((drop_piece_at b c AI_PIECE).1) alpha beta).1.2 with hrdef
      set v := (recurF ((drop_piece_at b c AI_PIECE).1)).2 with hvdef
      have hchild : FailSoft r v alpha beta := hrec _ _ _ hab
      by_cases hlt : val < r
      · simp only [if_pos hlt]
        by_cases hbr : beta ≤ r
        · -- child failed high: prune; the returned value is a lower bound
          have hba : beta ≤ max alpha r := le_trans hbr (le_max_right _ _)
          rw [if_pos hba]
          refine ⟨hlt.le, ?_, ?_, ?_⟩
          · intro hra
            exact absurd (lt_of_lt_of_le hab hbr) (not_lt.mpr hra)
          · intro _
            exact le_trans (hchild.2.1 hbr)
              (le_trans (le_max_right val v) (le_fmValMax recurF b rest _))
          · intro _ hrb
            exact absurd hbr (not_le.mpr hrb)
        · have hrb : r < beta := not_le.mp hbr
          have hnb : ¬ beta ≤ max alpha r := not_le.mpr (max_lt hab hrb)
          rw [if_neg hnb]
          by_cases har : alpha < r
          · -- child value exact: both loops continue from the same value
            have hrv : r = v := hchild.2.2 har hrb
            have hmaxar : max alpha r = r := max_eq_right har.le
            have hmvv : max val v = r := by
              rw [← hrv]
              exact max_eq_right hlt.le
            rw [hmaxar, hmvv]
            obtain ⟨hge, hfs⟩ := ih b r beta c r hrb (le_refl r)
            refine ⟨le_trans hlt.le hge, ?_, ?_, ?_⟩
            · intro hRa
              exact absurd (lt_of_lt_of_le har hge) (not_lt.mpr hRa)
            · intro hbR
              exact hfs.2.1 hbR
            · intro haR hRb
              rcases lt_or_le r ((mmMaxLoop recurP rest b r beta c r).1.2) with hrR | hRr
              · exact hfs.2.2 hrR hRb
              · have hReq : (mmMaxLoop recurP rest b r beta c r).1.2 = r :=
                  le_antisymm hRr hge
                have hMr : fmValMax recurF b rest r ≤
                    (mmMaxLoop recurP rest b r beta c r).1.2 :=
                  hfs.1 (le_of_eq hReq)
                exact le_antisymm (hReq.le.trans (le_fmValMax recurF b rest r)) hMr
          · -- child failed low: returned value an upper bound on its true value
            have hra : r ≤ alpha := not_lt.mp har
            have hvr : v ≤ r := hchild.1 hra
            have hmaxar : max alpha r = alpha := max_eq_left hra
            rw [hmaxar]
            obtain ⟨hge, hfs⟩ := ih b alpha beta c r hab hra
            have hMM' : fmValMax recurF b rest (max val v) ≤ fmValMax recurF b rest r :=
              fmValMax_mono recurF b rest _ _ (max_le hlt.le hvr)
            have hM' : fmValMax recurF b rest r =
                max r (fmValMax recurF b rest (max val v)) := by
              rw [← fmValMax_max]
              congr 1
              exact (max_eq_left (max_le hlt.le hvr)).symm
            refine ⟨le_trans hlt.le hge, ?_, ?_, ?_⟩
            · intro hRa
              exact le_trans hMM' (hfs.1 hRa)
            · intro hbR
              have hRM' := hfs.2.1 hbR
              rw [hM'] at hRM'
              rcases max_cases r (fmValMax recurF b rest (max val v)) with ⟨heq, -⟩ | ⟨heq, -⟩
              · rw [heq] at hRM'
                exact ((not_lt.mpr (hRM'.trans hra)) (lt_of_lt_of_le hab hbR)).elim
              · rw [heq] at hRM'
                exact hRM'
            · intro haR hRb
              have hRM' := hfs.2.2 haR hRb
              rw [hM'] at hRM'
              rcases max_cases r (fmValMax recurF b rest (max val v)) with ⟨heq, -⟩ | ⟨heq, -⟩
              · rw [heq] at hRM'
                exact ((not_lt.mpr (hRM'.le.trans hra)) haR).elim
              · rw [heq] at hRM'
                exact hRM'
      · -- no update: the child could not improve the running value
        simp only [if_neg hlt]
        have hrv' : r ≤ val := not_lt.mp hlt
        have hra : r ≤ alpha := le_trans hrv' hva
        have hvr : v ≤ r := hchild.1 hra
        have hmax : max alpha val = alpha := max_eq_left hva
        rw [hmax, if_neg (not_le.mpr hab)]
        have hmv : max val v = val := max_eq_left (hvr.trans hrv')
        rw [hmv]
        exact ih b alpha beta col val hab hva

/-- Fail-soft correctness of the pruned minimizing loop against the unpruned
fold, relative to the loop's own current window and running value. -/
lemma mmMinLoop_failSoft
    (recurP : Board → ExtInt → ExtInt → (Option ℕ × ExtInt) × Board)
    (recurF : Board → Option ℕ × ExtInt)
    (hrec : ∀ b' a' b'', a' < b'' →
      FailSoft ((recurP b' a' b'').1.2) ((recurF b').2) a' b'') :
    ∀ (cs : List ℕ) (b : Board) (alpha beta : ExtInt) (col : ℕ) (val : ExtInt),
      alpha < beta → beta ≤ val →
      (mmMinLoop recurP cs b alpha beta col val).1.2 ≤ val ∧
      FailSoft ((mmMinLoop recurP cs b alpha beta col val).1.2)
        (fmValMin recurF b cs val) alpha beta := by
  intro cs
  induction cs with
  | nil =>
      intro b alpha beta col val hab hvb
      exact ⟨le_refl _, failSoft_of_eq rfl⟩
  | cons c rest ih =>
      intro b alpha beta col val hab hvb
      simp only [mmMinLoop, fmValMin]
      set r := (recurP ((drop_piece_at b c PLAYER_PIECE).1) alpha beta).1.2 with hrdef
      set v := (recurF ((drop_piece_at b c PLAYER_PIECE).1)).2 with hvdef
      have hchild : FailSoft r v alpha beta := hrec _ _ _ hab
      by_cases hlt : r < val
      · simp only [if_pos hlt]
        by_cases hra : r ≤ alpha
        · -- child failed low: prune; the returned value is an upper bound
          have hba : min beta r ≤ alpha := le_trans (min_le_right _ _) hra
          rw [if_pos hba]
          refine ⟨hlt.le, ?_, ?_, ?_⟩
          · intro _
            exact le_trans (fmValMin_le recurF b rest _)
              (le_trans (min_le_right val v) (hchild.1 hra))
          · intro hbr
            exact absurd (le_trans hbr hra) (not_le.mpr hab)
          · intro har _
            exact absurd har (not_lt.mpr hra)
        · have har : alpha < r := not_le.mp hra
          have hnb : ¬ min beta r ≤ alpha := not_le.mpr (lt_min hab har)
          rw [if_neg hnb]
          by_cases hrb : r < beta
          · -- child value exact: both loops continue from the same value
            have hrv : r = v := hchild.2.2 har hrb
            have hminbr : min beta r = r := min_eq_right hrb.le
            have hmvv : min val v = r := by
              rw [← hrv]
              exact min_eq_right hlt.le
            rw [hminbr, hmvv]
            obtain ⟨hge, hfs⟩ := ih b alpha r c r har (le_refl r)
            refine ⟨le_trans hge hlt.le, ?_, ?_, ?_⟩
            · intro hRa
              exact hfs.1 hRa
            · intro hbR
              exact absurd (lt_of_le_of_lt hge hrb) (not_lt.mpr hbR)
            · intro haR hRb
              rcases lt_or_le ((mmMinLoop recurP rest b alpha r c r).1.2) r with hRr | hrR
              · exact hfs.2.2 haR hRr
              · have hReq : (mmMinLoop recurP rest b alpha r c r).1.2 = r :=
                  le_antisymm hge hrR
                have hRM := hfs.2.1 hrR
                exact le_antisymm hRM (le_trans (fmValMin_le recurF b rest r) hReq.ge)
          · -- child failed high: returned value a lower bound on its true value
            have hbr : beta ≤ r := not_lt.mp hrb
            have hvrge : r ≤ v := hchild.2.1 hbr
            have hminbr : min beta r = beta := min_eq_left hbr
            rw [hminbr]
            obtain ⟨hge, hfs⟩ := ih b alpha beta c r hab hbr
            have hMM' : fmValMin recurF b rest r ≤ fmValMin recurF b rest (min val v) :=
              fmValMin_mono recurF b rest _ _ (le_min hlt.le hvrge)
            have hM' : fmValMin recurF b rest r =
                min r (fmValMin recurF b rest (min val v)) := by
              rw [← fmValMin_min]
              congr 1
              exact (min_eq_left (le_min hlt.le hvrge)).symm
            refine ⟨le_trans hge hlt.le, ?_, ?_, ?_⟩
            · intro hRa
              have hRM' := hfs.1 hRa
              rw [hM'] at hRM'
              rcases min_cases r (fmValMin recurF b rest (min val v)) with ⟨heq, -⟩ | ⟨heq, -⟩
              · rw [heq] at hRM'
                exact ((not_le.mpr (lt_of_lt_of_le hab hbr)) (hRM'.trans hRa)).elim
              · rw [heq] at hRM'
                exact hRM'
            · intro hbR
              exact le_trans (hfs.2.1 hbR) hMM'
            · intro haR hRb
              have hRM' := hfs.2.2 haR hRb
              rw [hM'] at hRM'
              rcases min_cases r (fmValMin recurF b rest (min val v)) with ⟨heq, -⟩ | ⟨heq, -⟩
              · rw [heq] at hRM'
                exact ((not_lt.mpr (hbr.trans hRM'.ge)) hRb).elim
              · rw [heq] at hRM'
                exact hRM'
      · -- no update: the child could not improve the running value
        simp only [if_neg hlt]
        have hvr' : val ≤ r := not_lt.mp hlt
        have hbrv : beta ≤ r := le_trans hvb hvr'
        have hvge : r ≤ v := hchild.2.1 hbrv
        have hmin : min beta val = beta := min_eq_left hvb
        rw [hmin, if_neg (not_le.mpr hab)]
        have hmv : min val v = val := min_eq_left (hvr'.trans hvge)
        rw [hmv]
        exact ih b alpha beta col val hab hvb

lemma fullMinimax_succ_max (rnd : List ℕ → ℕ) (d : ℕ) (b : Board)
    (h : is_terminal_node b = false) :
    fullMinimax rnd (d + 1) b true =
      fmMaxLoop (fun b' => fullMinimax rnd d b' false) b
        (get_valid_locations b) (rnd (get_valid_locations b)) ⊥ := by
  simp [fullMinimax, h]

lemma fullMinimax_succ_min (rnd : List ℕ → ℕ) (d : ℕ) (b : Board)
    (h : is_terminal_node b = false) :
    fullMinimax rnd (d + 1) b false =
      fmMinLoop (fun b' => fullMinimax rnd d b' true) b
        (get_valid_locations b) (rnd (get_valid_locations b)) ⊤ := by
  simp [fullMinimax, h]

/-- Node-level fail-soft correctness: for any window with alpha < beta, the
pruned search value relates to the unpruned full-minimax value by the
fail-soft contract; with the full window the two are equal. -/
lemma minimax_failSoft (rnd : List ℕ → ℕ) :
    ∀ (d : ℕ) (b : Board) (alpha beta : ExtInt) (m : Bool), alpha < beta →
      FailSoft ((minimax rnd d b alpha beta m).1.2)
        ((fullMinimax rnd d b m).2) alpha beta := by
  intro d
  induction d with
  | zero =>
      intro b alpha beta m hab
      exact failSoft_of_eq rfl
  | succ d ih =>
      intro b alpha beta m hab
      by_cases hterm : is_terminal_node b = true
      · have h1 : (minimax rnd (d+1) b alpha beta m).1.2 = terminalScore b := by
          simp [minimax, hterm]
        have h2 : (fullMinimax rnd (d+1) b m).2 = terminalScore b := by
          simp [fullMinimax, hterm]
        rw [h1, h2]
        exact failSoft_of_eq rfl
      · have hterm' : is_terminal_node b = false := by
          simpa using hterm
        cases m with
        | true =>
            rw [minimax_succ_max rnd d b alpha beta hterm',
              fullMinimax_succ_max rnd d b hterm', fmMaxLoop_snd]
            exact (mmMaxLoop_failSoft _ _
              (fun b' a' b'' h => ih b' a' b'' false h)
              (get_valid_locations b) b alpha beta _ ⊥ hab bot_le).2
        | false =>
            rw [minimax_succ_min rnd d b alpha beta hterm',
              fullMinimax_succ_min rnd d b hterm', fmMinLoop_snd]
            exact (mmMinLoop_failSoft _ _
              (fun b' a' b'' h => ih b' a' b'' true h)
              (get_valid_locations b) b alpha beta _ ⊤ hab le_top).2

/-- With the full window (alpha = running value, beta = +infinity) the pruned
maximizing loop never prunes and returns exactly the unpruned fold's column
and score. -/
lemma mmMaxLoop_root_eq
    (recurP : Board → ExtInt → ExtInt → (Option ℕ × ExtInt) × Board)
    (recurF : Board → Option ℕ × ExtInt)
    (hrec : ∀ b' a', a' < ⊤ →
      FailSoft ((recurP b' a' ⊤).1.2) ((recurF b').2) a' ⊤)
    (hrect : ∀ b' a' b'', (recurP b' a' b'').1.2 < ⊤) :
    ∀ (cs : List ℕ) (b : Board) (col : ℕ) (val : ExtInt), val < ⊤ →
      (mmMaxLoop recurP cs b val ⊤ col val).1 = fmMaxLoop recurF b cs col val := by
  intro cs
  induction cs with
  | nil => intro b col val hval; rfl
  | cons c rest ih =>
      intro b col val hval
      simp only [mmMaxLoop, fmMaxLoop]
      set r := (recurP ((drop_piece_at b c AI_PIECE).1) val ⊤).1.2 with hrdef
      set v := (recurF ((drop_piece_at b c AI_PIECE).1)).2 with hvdef
      have hchild : FailSoft r v val ⊤ := hrec _ _ hval
      have hrt : r < ⊤ := hrect _ _ _
      by_cases hlt : val < r
      · have hrv : r = v := hchild.2.2 hlt hrt
        have hltv : val < v := hrv ▸ hlt
        simp only [if_pos hlt, if_pos hltv]
        rw [max_eq_right hlt.le, if_neg (not_le.mpr hrt), ← hrv]
        exact ih b c r hrt
      · have hnv : ¬ val < v := by
          intro hvv
          exact absurd (lt_of_lt_of_le hvv (hchild.1 (not_lt.mp hlt))) hlt
        simp only [if_neg hlt, if_neg hnv]
        rw [max_self, if_neg (not_le.mpr hval)]
        exact ih b col val hval

/-- With the full window the pruned minimizing loop never prunes and returns
exactly the unpruned fold's column and score. -/
lemma mmMinLoop_root_eq
    (recurP : Board → ExtInt → ExtInt → (Option ℕ × ExtInt) × Board)
    (recurF : Board → Option ℕ × ExtInt)
    (hrec : ∀ b' b'', ⊥ < b'' →
      FailSoft ((recurP b' ⊥ b'').1.2) ((recurF b').2) ⊥ b'')
    (hrecb : ∀ b' a' b'', ⊥ < (recurP b' a' b'').1.2) :
    ∀ (cs : List ℕ) (b : Board) (col : ℕ) (val : ExtInt), ⊥ < val →
      (mmMinLoop recurP cs b ⊥ val col val).1 = fmMinLoop recurF b cs col val := by
  intro cs
  induction cs with
  | nil => intro b col val hval; rfl
  | cons c rest ih =>
      intro b col val hval
      simp only [mmMinLoop, fmMinLoop]
      set r := (recurP ((drop_piece_at b c PLAYER_PIECE).1) ⊥ val).1.2 with hrdef
      set v := (recurF ((drop_piece_at b c PLAYER_PIECE).1)).2 with hvdef
      have hchild : FailSoft r v ⊥ val := hrec _ _ hval
      have hrb : ⊥ < r := hrecb _ _ _
      by_cases hlt : r < val
      · have hrv : r = v := hchild.2.2 hrb hlt
        have hltv : v < val := hrv ▸ hlt
        simp only [if_pos hlt, if_pos hltv]
        rw [min_eq_right hlt.le, if_neg (not_le.mpr hrb), ← hrv]
        exact ih b c r hrb
      · have hnv : ¬ v < val := by
          intro hvv
          exact absurd (lt_of_le_of_lt (hchild.2.1 (not_lt.mp hlt)) hvv) hlt
        simp only [if_neg hlt, if_neg hnv]
        rw [min_self, if_neg (not_le.mpr hval)]
        exact ih b col val hval

/- ---------------------------------------------------------------------------
Claim C1 — alpha-beta equivalence with unpruned minimax.
--------------------------------------------------------------------------- -/

/-- C1: at the top level (alpha = -infinity, beta = +infinity), the pruned
search returns exactly the column and score of the unpruned full minimax at
the same depth — the result is in fact identical, not merely equal modulo
tie-breaks, and in particular get_ai_move is the full-minimax column. -/
theorem c1_alphabeta_equiv (rnd : List ℕ → ℕ) (d : ℕ) (b : Board) (m : Bool) :
    (minimax rnd d b ⊥ ⊤ m).1 = fullMinimax rnd d b m ∧
    get_ai_move rnd b d = (fullMinimax rnd d b true).1 := by
  have main : ∀ m' : Bool, (minimax rnd d b ⊥ ⊤ m').1 = fullMinimax rnd d b m' := by
    intro m'
    cases d with
    | zero => rfl
    | succ d =>
        by_cases hterm : is_terminal_node b = true
        · have h1 : (minimax rnd (d+1) b ⊥ ⊤ m').1 = (none, terminalScore b) := by
            simp [minimax, hterm]
          have h2 : fullMinimax rnd (d+1) b m' = (none, terminalScore b) := by
            simp [fullMinimax, hterm]
          rw [h1, h2]
        · have hterm' : is_terminal_node b = false := by
            simpa using hterm
          cases m' with
          | true =>
              rw [minimax_succ_max rnd d b ⊥ ⊤ hterm',
                fullMinimax_succ_max rnd d b hterm']
              exact mmMaxLoop_root_eq _ _
                (fun b' a' h => minimax_failSoft rnd d b' a' ⊤ false h)
                (fun b' a' b'' => (minimax_score_bounds rnd d b' a' b'' false).2)
                (get_valid_locations b) b _ ⊥ bot_lt_top
          | false =>
              rw [minimax_succ_min rnd d b ⊥ ⊤ hterm',
                fullMinimax_succ_min rnd d b hterm']
              exact mmMinLoop_root_eq _ _
                (fun b' b'' h => minimax_failSoft rnd d b' ⊥ b'' true h)
                (fun b' a' b'' => (minimax_score_bounds rnd d b' a' b'' true).1)
                (get_valid_locations b) b _ ⊤ bot_lt_top
  exact ⟨main m, by unfold get_ai_move; rw [main true]⟩
